import Mathlib

/-!
A verification development for the longevity-backend retrieval-augmented
question-answering service: a shallow embedding of the request path of
`src/main.py` (the `/ask` handler: context extraction from vector-store
matches, user-profile rendering, prompt assembly, the trailing exception
handler) and of the ingestion pipeline of `src/index_docs.py` (chunking
configuration, `create_embeddings`, `ensure_index_exists`, the batch loop of
`main`), with theorems about retrieval error handling, prompt assembly,
chunking, embedding batching, id assignment and index creation.

Modelling conventions: Python floats are modelled as rationals, Python dicts
as association lists, raised exceptions as `Except` errors, and the external
OpenAI / Pinecone collaborators as explicit function parameters and state.
-/

/-- An embedding vector (a Python list of floats). -/
abbrev Vec := List ℚ

/-- A Python dict used as Pinecone record metadata / query-match payload. -/
abbrev Metadata := List (String × String)

/-! ## src/main.py: request models and the /ask handler -/

/-- The `UserData` pydantic model (src/main.py lines 48-55): every biometric
field is independently optional. -/
structure UserData where
  age : Option Nat
  weight : Option ℚ
  height : Option ℚ
  gender : Option String
  activity_level : Option String
  goal : Option String
  dietary_preferences : Option String
  deriving DecidableEq

/-- Python truthiness of an optional integer field (`if request.user_data.age:`):
true only for a present, non-zero value. -/
def truthyNat : Option Nat → Bool
  | some n => n != 0
  | none => false

/-- Python truthiness of an optional float field: present and non-zero. -/
def truthyRat : Option ℚ → Bool
  | some q => q != 0
  | none => false

/-- Python truthiness of an optional string field: present and non-empty. -/
def truthyStr : Option String → Bool
  | some s => s != ""
  | none => false

/-- `if <int field>: user_parts.append(line(field))`: the appended lines (one
or none) for one optional integer field. -/
def fieldLineNat (v : Option Nat) (mk : Nat → String) : List String :=
  match v with
  | some a => if a != 0 then [mk a] else []
  | none => []

/-- `if <float field>: user_parts.append(line(field))` for one optional float
field. -/
def fieldLineRat (v : Option ℚ) (mk : ℚ → String) : List String :=
  match v with
  | some a => if a != 0 then [mk a] else []
  | none => []

/-- `if <string field>: user_parts.append(line(field))` for one optional
string field. -/
def fieldLineStr (v : Option String) (mk : String → String) : List String :=
  match v with
  | some a => if a != "" then [mk a] else []
  | none => []

/-- The `user_parts` list built by `ask_question` (src/main.py lines 122-136):
for each of the seven fields, in source order, a rendered line is appended
exactly when the field passes the Python truthiness test. -/
def userParts (u : UserData) : List String :=
  fieldLineNat u.age (fun a => s!"Età: {a} anni") ++
  fieldLineRat u.weight (fun w => s!"Peso: {w} kg") ++
  fieldLineRat u.height (fun h => s!"Altezza: {h} cm") ++
  fieldLineStr u.gender (fun g => s!"Genere: {g}") ++
  fieldLineStr u.activity_level (fun al => s!"Livello di attività: {al}") ++
  fieldLineStr u.goal (fun go => s!"Obiettivo: {go}") ++
  fieldLineStr u.dietary_preferences (fun dp => s!"Preferenze alimentari/allergie: {dp}")

/-- How many of the seven fields pass the Python truthiness test. -/
def truthyCount (u : UserData) : Nat :=
  (if truthyNat u.age then 1 else 0) +
  (if truthyRat u.weight then 1 else 0) +
  (if truthyRat u.height then 1 else 0) +
  (if truthyStr u.gender then 1 else 0) +
  (if truthyStr u.activity_level then 1 else 0) +
  (if truthyStr u.goal then 1 else 0) +
  (if truthyStr u.dietary_preferences then 1 else 0)

/-- The `user_context` block (src/main.py lines 120-139): empty when
`request.user_data` is absent or no part was rendered, otherwise a header
followed by the newline-joined parts. -/
def user_context (ud : Option UserData) : String :=
  match ud with
  | none => ""
  | some u =>
    if userParts u = [] then ""
    else "\n\nDati biometrici dell\x27utente:\n" ++ String.intercalate "\n" (userParts u)

/-- A FastAPI `HTTPException`: status code and detail. -/
structure HTTPException where
  status_code : Nat
  detail : String
  deriving DecidableEq

/-- `str(e)` of a Starlette/FastAPI `HTTPException`. -/
def strOfHTTPException (h : HTTPException) : String := s!"{h.status_code}: {h.detail}"

/-- A Python exception as the trailing `except Exception` handler inspects it:
whether it carries a `status_code` attribute (with its integer value), and its
`str(e)` rendering. -/
structure PyExc where
  status_code : Option Nat
  str : String
  deriving DecidableEq

/-- An `HTTPException` viewed as a caught exception: it carries a
`status_code` attribute, and Starlette renders it as `"{code}: {detail}"`. -/
def pyExcOfHTTPException (h : HTTPException) : PyExc :=
  ⟨some h.status_code, strOfHTTPException h⟩

/-- The trailing exception handler of `ask_question` (src/main.py lines
203-215): an exception with a `status_code` attribute is re-raised as an
`HTTPException` with that status and a detail prefixed `Errore API OpenAI`;
every other exception becomes a 500 `Errore interno del server`. The model is
a total function, so every caught exception yields an `HTTPException`. -/
def handle_ask_exception (e : PyExc) : HTTPException :=
  match e.status_code with
  | some c => ⟨c, "Errore API OpenAI: " ++ e.str⟩
  | none => ⟨500, "Errore interno del server: " ++ e.str⟩

/-- One Pinecone query match as the handler reads it: its `metadata`, which the
query may return as a dict or as `None`. -/
structure QueryMatch where
  metadata : Option Metadata
  deriving DecidableEq

/-- Python dict lookup `md[k]` / membership `k in md`, on the association-list
model of a dict. -/
def lookupKey (md : Metadata) (k : String) : Option String :=
  match md.find? (fun kv => kv.1 == k) with
  | some kv => some kv.2
  | none => none

/-- The runtime error the extraction loop can raise. -/
inductive PyError where
  | typeError
  deriving DecidableEq

/-- `str` of the `TypeError` raised by `'content' in None`. -/
def TYPE_ERROR_STR : String := "argument of type \x27NoneType\x27 is not iterable"

/-- One iteration of the context-extraction loop (src/main.py lines 104-108):
`if match.metadata and 'text' in match.metadata:` appends `metadata['text']`;
`elif 'content' in match.metadata:` appends `metadata['content']` when present
and otherwise skips the match — but evaluating it with `metadata = None`
raises `TypeError`. Returns the appended text, `none` for a skipped match. -/
def extractStep (m : QueryMatch) : Except PyError (Option String) :=
  match m.metadata with
  | none => Except.error PyError.typeError
  | some md =>
    if md ≠ [] ∧ (lookupKey md "text").isSome then Except.ok (lookupKey md "text")
    else Except.ok (lookupKey md "content")

/-- The whole `context_documents` extraction loop (src/main.py lines 102-108),
in match order; a raised `TypeError` aborts the loop. -/
def extractContexts : List QueryMatch → Except PyError (List String)
  | [] => Except.ok []
  | m :: ms =>
    match extractStep m with
    | Except.error e => Except.error e
    | Except.ok none => extractContexts ms
    | Except.ok (some c) =>
      match extractContexts ms with
      | Except.error e => Except.error e
      | Except.ok cs => Except.ok (c :: cs)

/-- Detail of the 404 raised when `context_documents` is empty
(src/main.py lines 110-114). -/
def NO_DOCS_DETAIL : String := "Nessun documento rilevante trovato in Pinecone"

/-- `context = "\n\n".join(context_documents)` (src/main.py line 117). -/
def context_of (docs : List String) : String := String.intercalate "\n\n" docs

/-- The `user_message` prompt (src/main.py lines 179-186): retrieved context,
the optional user-profile block, and the question. -/
def user_message (docs : List String) (ud : Option UserData) (question : String) : String :=
  "Contesto scientifico (fonte: database Pinecone):\n\n" ++ context_of docs ++ "\n" ++
    user_context ud ++ "\n\nDomanda dell\x27utente: " ++ question ++
    "\n\nFornisci una risposta dettagliata basata esclusivamente sulle informazioni fornite nel contesto sopra."

/-- The `/ask` handler (src/main.py lines 73-215) from the point where the
vector-store query has returned `matches`. The question-embedding call, the
query itself and the chat completion are external collaborators; `complete`
maps the assembled user message to the provider answer. A `TypeError` from
the extraction loop reaches the trailing handler carrying no `status_code`
attribute; the internally raised 404 `HTTPException` reaches it carrying one.
The handler never lets a raw exception propagate: every failure is an
`HTTPException`. -/
def ask_question (queryMatches : List QueryMatch) (user_data : Option UserData)
    (question : String) (complete : String → String) : Except HTTPException String :=
  match extractContexts queryMatches with
  | Except.error PyError.typeError =>
    Except.error (handle_ask_exception ⟨none, TYPE_ERROR_STR⟩)
  | Except.ok docs =>
    if docs = [] then
      Except.error (handle_ask_exception (pyExcOfHTTPException ⟨404, NO_DOCS_DETAIL⟩))
    else
      Except.ok (complete (user_message docs user_data question))

/-! ## src/index_docs.py: configuration, embedder, index creation, batch loop -/

/-- `CHUNK_SIZE` (src/index_docs.py line 40). -/
def CHUNK_SIZE : Nat := 1000

/-- `CHUNK_OVERLAP` (src/index_docs.py line 41). -/
def CHUNK_OVERLAP : Nat := 200

/-- `EMBEDDING_DIMENSION` (src/index_docs.py line 45). -/
def EMBEDDING_DIMENSION : Nat := 1024

/-- `BATCH_SIZE` (src/index_docs.py line 46). -/
def BATCH_SIZE : Nat := 50

/-- `create_embeddings` (src/index_docs.py lines 125-143): calls the OpenAI
embeddings endpoint (modelled by `provider`, which returns the list
`[item.embedding for item in response.data]` or raises) and returns the
provider vectors unchanged; a raised provider error is re-raised wrapped in
`Errore nella creazione degli embedding`. No count validation is performed. -/
def create_embeddings (provider : List String → Except String (List Vec))
    (texts : List String) : Except String (List Vec) :=
  match provider texts with
  | Except.error e => Except.error ("Errore nella creazione degli embedding: " ++ e)
  | Except.ok vs => Except.ok vs

/-- One index of the external Pinecone project. -/
structure IndexInfo where
  name : String
  dimension : Nat
  metric : String
  deriving DecidableEq

/-- The Pinecone project state: the list of existing indexes. -/
structure PineconeState where
  indexes : List IndexInfo
  deriving DecidableEq

/-- `ensure_index_exists` (src/index_docs.py lines 146-161): list the existing
index names; when the configured name is absent, create it with
`EMBEDDING_DIMENSION` and the cosine metric, otherwise leave the project
untouched. -/
def ensure_index_exists (indexName : String) (s : PineconeState) : PineconeState :=
  if indexName ∈ s.indexes.map IndexInfo.name then s
  else { indexes := s.indexes ++ [⟨indexName, EMBEDDING_DIMENSION, "cosine"⟩] }

/-- `f"id-{chunk_id_counter}"` (src/index_docs.py line 233). -/
def mkId (k : Nat) : String := s!"id-{k}"

/-- One record passed to `index.upsert` (src/index_docs.py lines 232-236). -/
structure PineRecord where
  id : String
  values : Vec
  metadata : Metadata
  deriving DecidableEq

/-- `all_chunks[i:i + BATCH_SIZE]` slicing of the batch loop
(src/index_docs.py lines 218-219), as the list of consecutive batches.
`fuel` bounds the recursion; `l.length` is always enough, since every
step consumes `BATCH_SIZE > 0` elements. -/
def toBatchesAux : Nat → List String → List (List String)
  | 0, _ => []
  | fuel + 1, l =>
    if l = [] then []
    else l.take BATCH_SIZE :: toBatchesAux fuel (l.drop BATCH_SIZE)

/-- The list of consecutive `BATCH_SIZE`-sized batches of `all_chunks`. -/
def toBatches (l : List String) : List (List String) :=
  toBatchesAux l.length l

/-- What the ingestion run prints, as structured entries: the total chunk
count announced before the batch loop (`Totale chunk generati`), the per-batch
success and failure lines, the final uploaded total (`Caricati ... in
totale`), and the early-return message when no chunk was generated. -/
inductive LogEntry where
  | totalChunks (n : Nat)
  | batchOk (b n : Nat)
  | batchErr (b : Nat)
  | finalUploaded (n : Nat)
  | noChunks
  deriving DecidableEq

/-- Whether a log entry is the outcome line of one batch. -/
def LogEntry.isBatchOutcome : LogEntry → Bool
  | LogEntry.batchOk _ _ => true
  | LogEntry.batchErr _ => true
  | _ => false

/-- The mutable state of the batch loop of `main` (src/index_docs.py lines
215-247): the success counter `total_uploaded`, the id counter
`chunk_id_counter`, everything upserted so far, and the printed log. -/
structure IngestState where
  total_uploaded : Nat
  chunk_id_counter : Nat
  upserts : List PineRecord
  log : List LogEntry
  deriving DecidableEq

/-- The `vectors_batch` built by zipping a batch with its embeddings
(src/index_docs.py lines 230-237): the k-th pair gets id
`id-(chunk_id_counter + k)`, the embedding as `values`, and metadata exactly
`{"text": chunk_text}`. `zip` pairs positionally and stops at the shorter
list, as Python `zip` does. -/
def vectorsOf (startId : Nat) (batch : List String) (embs : List Vec) : List PineRecord :=
  (batch.zip embs).enum.map (fun p => ⟨mkId (startId + p.1), p.2.2, [("text", p.2.1)]⟩)

/-- One iteration of the batch loop (src/index_docs.py lines 218-247): embed
the batch (a failure is caught, logged, and the loop continues with nothing
else changed); on success build `vectors_batch`, advancing the id counter per
record, then upsert (`upsertFails` tells whether `index.upsert` raises for
this batch number; a failure is caught and logged, but the id counter has
already advanced); on full success the records and the uploaded total are
recorded. -/
def processBatch (provider : List String → Except String (List Vec))
    (upsertFails : Nat → Bool) (bnum : Nat) (batch : List String)
    (st : IngestState) : IngestState :=
  match create_embeddings provider batch with
  | Except.error _ => { st with log := st.log ++ [LogEntry.batchErr bnum] }
  | Except.ok embs =>
    let vb := vectorsOf st.chunk_id_counter batch embs
    if upsertFails bnum then
      { st with
          chunk_id_counter := st.chunk_id_counter + vb.length,
          log := st.log ++ [LogEntry.batchErr bnum] }
    else
      { st with
          chunk_id_counter := st.chunk_id_counter + vb.length,
          upserts := st.upserts ++ vb,
          total_uploaded := st.total_uploaded + vb.length,
          log := st.log ++ [LogEntry.batchOk bnum vb.length] }

/-- The batch loop itself, numbering batches from 1 as `batch_num` does. -/
def runBatches (provider : List String → Except String (List Vec))
    (upsertFails : Nat → Bool) : Nat → List (List String) → IngestState → IngestState
  | _, [], st => st
  | bnum, b :: bs, st =>
    runBatches provider upsertFails (bnum + 1) bs (processBatch provider upsertFails bnum b st)

/-- Steps 4-6 of `main` (src/index_docs.py lines 203-250), from the point where
`all_chunks` has been assembled: an empty chunk list returns early; otherwise
the total is announced, the batches are processed in order from fresh counters
(`total_uploaded = 0`, `chunk_id_counter = 1`), and the final uploaded total is
printed. Document loading and index creation are external steps before this. -/
def ingest_main (provider : List String → Except String (List Vec))
    (upsertFails : Nat → Bool) (all_chunks : List String) : IngestState :=
  if all_chunks = [] then ⟨0, 1, [], [LogEntry.noChunks]⟩
  else
    let st := runBatches provider upsertFails 1 (toBatches all_chunks)
      ⟨0, 1, [], [LogEntry.totalChunks all_chunks.length]⟩
    { st with log := st.log ++ [LogEntry.finalUploaded st.total_uploaded] }

/-! ## The chunker (spec-modelled)

`split_text_into_chunks` (src/index_docs.py lines 104-122) delegates the
actual splitting to `langchain_text_splitters.RecursiveCharacterTextSplitter`,
whose implementation is not part of this repository; the repository only
supplies the configuration `chunk_size = CHUNK_SIZE`, `chunk_overlap =
CHUNK_OVERLAP`, `length_function = len` and the separator priority list
`["\n\n", "\n", ". ", " ", ""]`. The splitter below is modelled from the
spec (§4.1): chunks are windows of at most `C` characters; each window is cut
at the best available separator, preferring paragraph breaks, then line
breaks, then sentence-ending punctuation followed by a space, then plain
spaces, then a hard character cut; the next window starts `O` characters
before the previous cut, so consecutive chunks share `O` characters of
boundary context and concatenation with the overlap removed reconstructs the
text; empty input yields an empty chunk sequence. Text is modelled as
`List Char`. -/

/-- Modelled from the spec: the priority class of a cut at position `j` (the
chunk ends just before index `j`), from the separator list of
src/index_docs.py line 118. 0 = right after a paragraph break `"\n\n"`,
1 = right after a line break `"\n"`, 2 = right after sentence-ending
punctuation followed by a space `". "`, 3 = right after a plain space `" "`,
4 = hard character cut. Lower is higher priority. -/
def cutClass (t : List Char) (j : Nat) : Nat :=
  if 2 ≤ j ∧ t[j - 2]? = some '\n' ∧ t[j - 1]? = some '\n' then 0
  else if 1 ≤ j ∧ t[j - 1]? = some '\n' then 1
  else if 2 ≤ j ∧ t[j - 2]? = some '.' ∧ t[j - 1]? = some ' ' then 2
  else if 1 ≤ j ∧ t[j - 1]? = some ' ' then 3
  else 4

/-- Modelled from the spec: keep the better of two cut candidates — strictly
higher separator priority wins, otherwise the incumbent (scanned first, hence
the later position) is kept. -/
def betterCut (t : List Char) (b j : Nat) : Nat :=
  if cutClass t j < cutClass t b then j else b

/-- Modelled from the spec: the cut chosen inside the admissible window
`(lo, hi]`: the latest position of the highest-priority separator class
available in the window, falling back to a lower-priority class only when no
higher-priority separator allows a cut within the bound. -/
def chooseCut (t : List Char) (lo hi : Nat) : Nat :=
  ((List.range' (lo + 1) (hi - lo)).reverse).foldl (betterCut t) hi

/-- Modelled from the spec: the chunk boundaries, as `(start, end)` index
pairs, of the text from position `s` on: when at most `C` characters remain
the final chunk runs to the end of the text; otherwise the window `(s + O,
s + C]` is cut at `chooseCut` and the next chunk starts `O` characters before
the cut. `fuel` bounds the recursion; `t.length - s` is always enough. The
degenerate configuration `C ≤ O` (excluded by the spec, which requires
`O < C`) also yields a single chunk. -/
def chunkBoundsAux (C O : Nat) (t : List Char) : Nat → Nat → List (Nat × Nat)
  | 0, s => [(s, t.length)]
  | fuel + 1, s =>
    if t.length ≤ s + C ∨ C ≤ O then [(s, t.length)]
    else
      (s, chooseCut t (s + O) (s + C)) ::
        chunkBoundsAux C O t fuel (chooseCut t (s + O) (s + C) - O)

/-- Modelled from the spec: the chunk boundaries of the whole text. -/
def chunkBounds (C O : Nat) (t : List Char) : List (Nat × Nat) :=
  chunkBoundsAux C O t t.length 0

/-- The slice `t[a:b]` of a text. -/
def sliceL (t : List Char) (a b : Nat) : List Char := (t.drop a).take (b - a)

/-- `split_text_into_chunks` (src/index_docs.py lines 104-122): split the text
with chunk size `CHUNK_SIZE` and overlap `CHUNK_OVERLAP` (the splitting
algorithm itself is modelled from the spec, see above). Empty text yields no
chunks. -/
def split_text_into_chunks (t : List Char) : List (List Char) :=
  if t = [] then []
  else (chunkBounds CHUNK_SIZE CHUNK_OVERLAP t).map (fun p => sliceL t p.1 p.2)

/-- Concatenation with the overlap removed: every chunk after the first
contributes its characters past the first `ov`. -/
def reassemble (ov : Nat) : List (List Char) → List Char
  | [] => []
  | c :: cs => c ++ (cs.map (fun d => d.drop ov)).flatten

/-! ## Theorems -/

/-- `String.intercalate` of a single part is that part. -/
theorem intercalate_singleton (sep x : String) : String.intercalate sep [x] = x := rfl

/-- C9: every exception raised inside the `/ask` handler, the internally
raised 404 `HTTPException` for missing context included, is mapped by the
trailing handler to an `HTTPException`: an exception carrying a `status_code`
attribute keeps that status code but has its detail replaced by a message
prefixed `Errore API OpenAI`, and every other exception becomes a 500
`Errore interno del server`; the handler is a total function into
`HTTPException`, so no raw exception propagates. -/
theorem C9_exception_handler (e : PyExc) :
    (∀ c : Nat, e.status_code = some c →
      handle_ask_exception e = ⟨c, "Errore API OpenAI: " ++ e.str⟩) ∧
    (e.status_code = none →
      handle_ask_exception e = ⟨500, "Errore interno del server: " ++ e.str⟩) ∧
    handle_ask_exception (pyExcOfHTTPException ⟨404, NO_DOCS_DETAIL⟩) =
      ⟨404, "Errore API OpenAI: " ++ ("404: " ++ NO_DOCS_DETAIL)⟩ := by
  refine ⟨?_, ?_, ?_⟩
  · intro c hc
    simp [handle_ask_exception, hc]
  · intro hc
    simp [handle_ask_exception, hc]
  · rfl

/-- C8: a query match whose `metadata` is `None` makes the fallback
membership test `'content' in match.metadata` raise a `TypeError` instead of
skipping the match, so the `/ask` request ends as a 500 internal error, not
the 404 not-found outcome. -/
theorem C8_none_metadata_type_error :
    extractStep ⟨none⟩ = Except.error PyError.typeError ∧
    extractContexts [⟨none⟩] = Except.error PyError.typeError ∧
    ask_question [⟨none⟩] none "q" (fun _ => "answer") =
      Except.error ⟨500, "Errore interno del server: " ++ TYPE_ERROR_STR⟩ := by
  exact ⟨rfl, rfl, rfl⟩

/-- C1 (evaluation at the failing input): a `/ask` request whose query
returns one match carrying no payload (metadata `None`) fails with status 500
(`Errore interno del server`, the re-raised `TypeError`), not with the 404
not-found outcome the specification requires for matches with no usable
payload text. -/
theorem C1_no_payload_match_is_500_not_404 :
    ask_question [⟨none⟩] none "Qual è il fabbisogno proteico?" (fun _ => "answer") =
      Except.error (handle_ask_exception ⟨none, TYPE_ERROR_STR⟩) ∧
    (∀ d : String,
      ask_question [⟨none⟩] none "Qual è il fabbisogno proteico?" (fun _ => "answer") ≠
        Except.error ⟨404, d⟩) ∧
    (∀ a : String,
      ask_question [⟨none⟩] none "Qual è il fabbisogno proteico?" (fun _ => "answer") ≠
        Except.ok a) := by
  refine ⟨rfl, ?_, ?_⟩
  · intro d h
    rw [show ask_question [⟨none⟩] none "Qual è il fabbisogno proteico?" (fun _ => "answer") =
      Except.error (⟨500, "Errore interno del server: " ++ TYPE_ERROR_STR⟩ : HTTPException)
      from rfl] at h
    simp at h
  · intro a h
    rw [show ask_question [⟨none⟩] none "Qual è il fabbisogno proteico?" (fun _ => "answer") =
      Except.error (⟨500, "Errore interno del server: " ++ TYPE_ERROR_STR⟩ : HTTPException)
      from rfl] at h
    simp at h

/-- C6 counterexample: a provider call that succeeds but returns one vector
for two input texts: `create_embeddings` succeeds and passes the
mismatched-count list through unchanged instead of failing. -/
theorem C6_count_mismatch_not_rejected :
    create_embeddings (fun _ => Except.ok [[(1 : ℚ)]]) ["a", "b"] =
      Except.ok [[(1 : ℚ)]] ∧
    ([[(1 : ℚ)]] : List Vec).length ≠ (["a", "b"] : List String).length := by
  exact ⟨rfl, by decide⟩

/-- C6 (amended): `create_embeddings` fails (wrapped in
`Errore nella creazione degli embedding`) exactly when the upstream call
errors, and on upstream success returns exactly the provider's vector list,
in order — a batch is all-or-nothing from the caller's point of view, but the
count of returned vectors is never validated against the input count. -/
theorem C6_embedder_contract (provider : List String → Except String (List Vec))
    (texts : List String) :
    (∀ e, provider texts = Except.error e →
      create_embeddings provider texts =
        Except.error ("Errore nella creazione degli embedding: " ++ e)) ∧
    (∀ vs, provider texts = Except.ok vs →
      create_embeddings provider texts = Except.ok vs) := by
  constructor
  · intro e he
    simp [create_embeddings, he]
  · intro vs hvs
    simp [create_embeddings, hvs]

/-- C7: `ensure_index_exists` is idempotent: when the configured index name
already exists the project state is returned unchanged (no error, nothing
created); when it does not exist, exactly one index with the configured
dimension 1024 and the cosine metric is appended; and running the operation
twice leaves the same state as running it once. -/
theorem C7_ensure_index_idempotent (indexName : String) (s : PineconeState) :
    (indexName ∈ s.indexes.map IndexInfo.name → ensure_index_exists indexName s = s) ∧
    (indexName ∉ s.indexes.map IndexInfo.name →
      ensure_index_exists indexName s =
        ⟨s.indexes ++ [⟨indexName, 1024, "cosine"⟩]⟩) ∧
    ensure_index_exists indexName (ensure_index_exists indexName s) =
      ensure_index_exists indexName s := by
  refine ⟨?_, ?_, ?_⟩
  · intro hmem
    simp [ensure_index_exists, hmem]
  · intro hmem
    simp [ensure_index_exists, hmem, EMBEDDING_DIMENSION]
  · by_cases hmem : indexName ∈ s.indexes.map IndexInfo.name
    · simp [ensure_index_exists, hmem]
    · have h1 : ensure_index_exists indexName s =
          ({ indexes := s.indexes ++ [⟨indexName, EMBEDDING_DIMENSION, "cosine"⟩] } :
            PineconeState) := by
        simp [ensure_index_exists, hmem]
      rw [h1]
      have h2 : indexName ∈
          (s.indexes ++ ([⟨indexName, EMBEDDING_DIMENSION, "cosine"⟩] : List IndexInfo)).map
            IndexInfo.name := by
        simp
      simp [ensure_index_exists, h2]

/-- One optional integer field contributes one line exactly when truthy. -/
theorem fieldLineNat_length (v : Option Nat) (mk : Nat → String) :
    (fieldLineNat v mk).length = if truthyNat v then 1 else 0 := by
  cases v with
  | none => rfl
  | some a =>
    simp only [fieldLineNat, truthyNat]
    split_ifs <;> rfl

/-- One optional float field contributes one line exactly when truthy. -/
theorem fieldLineRat_length (v : Option ℚ) (mk : ℚ → String) :
    (fieldLineRat v mk).length = if truthyRat v then 1 else 0 := by
  cases v with
  | none => rfl
  | some a =>
    simp only [fieldLineRat, truthyRat]
    split_ifs <;> rfl

/-- One optional string field contributes one line exactly when truthy. -/
theorem fieldLineStr_length (v : Option String) (mk : String → String) :
    (fieldLineStr v mk).length = if truthyStr v then 1 else 0 := by
  cases v with
  | none => rfl
  | some a =>
    simp only [fieldLineStr, truthyStr]
    split_ifs <;> rfl

/-- The number of rendered profile lines equals the number of truthy fields:
each field contributes its line exactly when it passes the truthiness test. -/
theorem userParts_length (u : UserData) : (userParts u).length = truthyCount u := by
  simp only [userParts, truthyCount, List.length_append, fieldLineNat_length,
    fieldLineRat_length, fieldLineStr_length]

/-- C4 counterexample: a User Profile whose only present field is `age` with
value zero renders no profile line and no profile block at all — the present
zero value is dropped by the Python truthiness test, where the claim says a
present zero must be rendered. -/
theorem C4_zero_age_not_rendered :
    userParts ⟨some 0, none, none, none, none, none, none⟩ = [] ∧
    user_context (some ⟨some 0, none, none, none, none, none, none⟩) = "" := by
  exact ⟨rfl, rfl⟩

/-- C4 (amended): a User Profile whose only present field is a non-zero `age`
renders exactly one profile line; an absent User Profile renders no block at
all; every rendered block has exactly one line per field passing the Python
truthiness test, so absent fields are never rendered as blanks — but a
present field whose value is zero (or an empty string) is treated exactly
like an absent one, since `ask_question` tests truthiness, not presence. -/
theorem C4_profile_rendering :
    (∀ a : Nat, a ≠ 0 →
      userParts ⟨some a, none, none, none, none, none, none⟩ = [s!"Età: {a} anni"] ∧
      user_context (some ⟨some a, none, none, none, none, none, none⟩) =
        "\n\nDati biometrici dell\x27utente:\n" ++ s!"Età: {a} anni") ∧
    user_context none = "" ∧
    (∀ u : UserData, (userParts u).length = truthyCount u) ∧
    (∀ u : UserData,
      userParts { u with age := some 0 } = userParts { u with age := none }) := by
  refine ⟨?_, rfl, userParts_length, ?_⟩
  · intro a ha
    have hb : (a != 0) = true := by simpa using ha
    have hparts : userParts ⟨some a, none, none, none, none, none, none⟩ =
        [s!"Età: {a} anni"] := by
      simp [userParts, fieldLineNat, fieldLineRat, fieldLineStr, hb]
    refine ⟨hparts, ?_⟩
    rw [user_context, hparts]
    simp [intercalate_singleton]
  · intro u
    obtain ⟨a, w, h, g, al, go, dp⟩ := u
    simp [userParts, fieldLineNat]

/-- Every iteration of the batch loop appends exactly one batch-outcome line
to the log, whatever the embedding call and the upsert did. -/
theorem processBatch_log (provider : List String → Except String (List Vec))
    (upsertFails : Nat → Bool) (bnum : Nat) (batch : List String) (st : IngestState) :
    ∃ entr : LogEntry, LogEntry.isBatchOutcome entr = true ∧
      (processBatch provider upsertFails bnum batch st).log = st.log ++ [entr] := by
  unfold processBatch
  cases he : create_embeddings provider batch with
  | error e => exact ⟨LogEntry.batchErr bnum, rfl, rfl⟩
  | ok embs =>
    by_cases hf : upsertFails bnum
    · exact ⟨LogEntry.batchErr bnum, rfl, by simp [hf]⟩
    · exact ⟨LogEntry.batchOk bnum (vectorsOf st.chunk_id_counter batch embs).length,
        rfl, by simp [hf]⟩

/-- One iteration of the batch loop adds the same amount to `total_uploaded`
as it adds records to the upserted list. -/
theorem processBatch_uploaded (provider : List String → Except String (List Vec))
    (upsertFails : Nat → Bool) (bnum : Nat) (batch : List String) (st : IngestState) :
    (processBatch provider upsertFails bnum batch st).total_uploaded + st.upserts.length =
      st.total_uploaded + (processBatch provider upsertFails bnum batch st).upserts.length := by
  unfold processBatch
  cases he : create_embeddings provider batch with
  | error e => rfl
  | ok embs =>
    by_cases hf : upsertFails bnum
    · simp [hf]
    · simp [hf, List.length_append]
      omega

/-- The batch loop visits every batch: the log grows by the caller's log plus
exactly one outcome line per batch, and the uploaded total grows exactly by
the number of records added to the upserted list. -/
theorem runBatches_spec (provider : List String → Except String (List Vec))
    (upsertFails : Nat → Bool) :
    ∀ (bs : List (List String)) (bnum : Nat) (st : IngestState),
      (∃ suffix, (runBatches provider upsertFails bnum bs st).log = st.log ++ suffix) ∧
      (runBatches provider upsertFails bnum bs st).log.countP LogEntry.isBatchOutcome =
        st.log.countP LogEntry.isBatchOutcome + bs.length ∧
      (runBatches provider upsertFails bnum bs st).total_uploaded + st.upserts.length =
        st.total_uploaded + (runBatches provider upsertFails bnum bs st).upserts.length := by
  intro bs
  induction bs with
  | nil =>
    intro bnum st
    exact ⟨⟨[], by simp [runBatches]⟩, by simp [runBatches], by simp [runBatches]⟩
  | cons b bs ih =>
    intro bnum st
    obtain ⟨entr, hout, hlog⟩ := processBatch_log provider upsertFails bnum b st
    have hup := processBatch_uploaded provider upsertFails bnum b st
    obtain ⟨⟨suffix, ihlog⟩, ihcount, ihup⟩ :=
      ih (bnum + 1) (processBatch provider upsertFails bnum b st)
    refine ⟨⟨[entr] ++ suffix, ?_⟩, ?_, ?_⟩
    · simp only [runBatches, ihlog, hlog, List.append_assoc]
    · simp only [runBatches, ihcount, hlog, List.countP_append]
      simp [hout, Nat.add_assoc, Nat.add_comm 1 bs.length]
    · simp only [runBatches] at ihup ⊢
      omega

/-- C3: a failure while embedding or upserting one batch never aborts the
ingestion run: starting from a non-empty chunk list, whatever the embedding
provider and the upsert do per batch, the log announces the total number of
chunks discovered, carries exactly one outcome line per batch (so the loop
reached every batch), and ends with the uploaded total; `total_uploaded`
counts exactly the successfully upserted records. -/
theorem C3_batch_failures_do_not_abort (provider : List String → Except String (List Vec))
    (upsertFails : Nat → Bool) (all_chunks : List String) (hne : all_chunks ≠ []) :
    LogEntry.totalChunks all_chunks.length ∈
      (ingest_main provider upsertFails all_chunks).log ∧
    (ingest_main provider upsertFails all_chunks).log.getLast? =
      some (LogEntry.finalUploaded
        (ingest_main provider upsertFails all_chunks).total_uploaded) ∧
    (ingest_main provider upsertFails all_chunks).log.countP LogEntry.isBatchOutcome =
      (toBatches all_chunks).length ∧
    (ingest_main provider upsertFails all_chunks).total_uploaded =
      (ingest_main provider upsertFails all_chunks).upserts.length := by
  obtain ⟨⟨suffix, hlog⟩, hcount, hup⟩ := runBatches_spec provider upsertFails
    (toBatches all_chunks) 1 ⟨0, 1, [], [LogEntry.totalChunks all_chunks.length]⟩
  simp only [ingest_main, if_neg hne]
  refine ⟨?_, ?_, ?_, ?_⟩
  · rw [hlog]
    simp
  · exact List.getLast?_concat _
  · rw [List.countP_append, hcount]
    simp [LogEntry.isBatchOutcome]
  · simpa using hup

/-- C3 witness: a concrete one-chunk run with a fully successful provider. -/
theorem C3_batch_failures_do_not_abort_witness :
    LogEntry.totalChunks 1 ∈
      (ingest_main (fun ts => Except.ok (ts.map (fun _ => ([] : Vec))))
        (fun _ => false) ["proteine"]).log :=
  (C3_batch_failures_do_not_abort (fun ts => Except.ok (ts.map (fun _ => ([] : Vec))))
    (fun _ => false) ["proteine"] (by decide)).1

/-- C5 counterexample: the same 51-chunk ingestion run, once with the first
embedding call failing and once with every call succeeding. With the failure,
the one record of the second batch (holding the 51st chunk) is upserted under
id `id-1`; with no failure the 51st chunk gets id `id-51`: the id assigned to
a chunk depends on the success of earlier embedding calls, and is assigned
only after its batch has embedded successfully. -/
theorem C5_ids_shift_on_embedding_failure :
    (ingest_main
        (fun ts => if ts.length == 50 then Except.error "boom"
          else Except.ok (ts.map (fun _ => ([] : Vec))))
        (fun _ => false) (List.replicate 51 "x")).upserts =
      [⟨mkId 1, [], [("text", "x")]⟩] ∧
    ((ingest_main (fun ts => Except.ok (ts.map (fun _ => ([] : Vec))))
        (fun _ => false) (List.replicate 51 "x")).upserts.map PineRecord.id).getLast? =
      some (mkId 51) := by
  constructor
  · rfl
  · rfl

/-- `range'` is strictly increasing. -/
theorem pairwise_lt_range' (s n : Nat) : List.Pairwise (· < ·) (List.range' s n) := by
  rw [List.range'_eq_map_range]
  exact (List.pairwise_lt_range n).map _ (fun a b h => by omega)

/-- The ids minted while building `vectors_batch` from a position-enumerated
pair list: consecutive counter values, rendered by `mkId`. -/
theorem ids_of_enumFrom (startId : Nat) :
    ∀ (l : List (String × Vec)) (k : Nat),
      ((l.enumFrom k).map
          (fun p => (⟨mkId (startId + p.1), p.2.2, [("text", p.2.1)]⟩ : PineRecord))).map
        PineRecord.id =
      (List.range' (startId + k) l.length).map mkId := by
  intro l
  induction l with
  | nil => intro k; rfl
  | cons x l ih =>
    intro k
    simp only [List.enumFrom_cons, List.map_cons, List.length_cons, List.range'_succ]
    rw [ih (k + 1)]
    have : startId + k + 1 = startId + (k + 1) := by omega
    rw [this]

/-- The ids of one `vectors_batch` are the consecutive counter values starting
at the current `chunk_id_counter`. -/
theorem vectorsOf_ids (startId : Nat) (batch : List String) (embs : List Vec) :
    (vectorsOf startId batch embs).map PineRecord.id =
      (List.range' startId (batch.zip embs).length).map mkId := by
  have h := ids_of_enumFrom startId (batch.zip embs) 0
  simpa [vectorsOf, List.enum] using h

/-- A `vectors_batch` holds one record per zipped pair. -/
theorem vectorsOf_length (startId : Nat) (batch : List String) (embs : List Vec) :
    (vectorsOf startId batch embs).length = (batch.zip embs).length := by
  simp [vectorsOf]

/-- Invariant of the batch loop: if the ids upserted so far are `mkId` images
of a strictly increasing list of counter values all below the current
counter, the same holds after processing any remaining batches. -/
theorem runBatches_ids (provider : List String → Except String (List Vec))
    (upsertFails : Nat → Bool) :
    ∀ (bs : List (List String)) (bnum : Nat) (st : IngestState) (ks : List Nat),
      List.Pairwise (· < ·) ks →
      st.upserts.map PineRecord.id = ks.map mkId →
      (∀ k ∈ ks, k < st.chunk_id_counter) →
      ∃ ks2 : List Nat, List.Pairwise (· < ·) ks2 ∧
        (runBatches provider upsertFails bnum bs st).upserts.map PineRecord.id =
          ks2.map mkId ∧
        ∀ k ∈ ks2, k < (runBatches provider upsertFails bnum bs st).chunk_id_counter := by
  intro bs
  induction bs with
  | nil =>
    intro bnum st ks h1 h2 h3
    exact ⟨ks, h1, h2, h3⟩
  | cons b bs ih =>
    intro bnum st ks h1 h2 h3
    simp only [runBatches]
    cases he : create_embeddings provider b with
    | error e =>
      have hp : processBatch provider upsertFails bnum b st =
          { st with log := st.log ++ [LogEntry.batchErr bnum] } := by
        simp [processBatch, he]
      rw [hp]
      exact ih (bnum + 1) _ ks h1 h2 h3
    | ok embs =>
      by_cases hf : upsertFails bnum
      · have hp : processBatch provider upsertFails bnum b st =
            { st with
                chunk_id_counter :=
                  st.chunk_id_counter + (vectorsOf st.chunk_id_counter b embs).length,
                log := st.log ++ [LogEntry.batchErr bnum] } := by
          simp [processBatch, he, hf]
        rw [hp]
        exact ih (bnum + 1) _ ks h1 h2 (fun k hk => by
          have := h3 k hk
          simp only
          omega)
      · have hp : processBatch provider upsertFails bnum b st =
            { st with
                chunk_id_counter :=
                  st.chunk_id_counter + (vectorsOf st.chunk_id_counter b embs).length,
                upserts := st.upserts ++ vectorsOf st.chunk_id_counter b embs,
                total_uploaded :=
                  st.total_uploaded + (vectorsOf st.chunk_id_counter b embs).length,
                log := st.log ++
                  [LogEntry.batchOk bnum (vectorsOf st.chunk_id_counter b embs).length] } := by
          simp [processBatch, he, hf]
        rw [hp]
        apply ih (bnum + 1) _ (ks ++ List.range' st.chunk_id_counter (b.zip embs).length)
        · rw [List.pairwise_append]
          refine ⟨h1, pairwise_lt_range' _ _, ?_⟩
          intro a ha k hk
          have h4 := h3 a ha
          have h5 := (List.mem_range'_1.mp hk).1
          omega
        · simp only [List.map_append, h2, vectorsOf_ids]
        · intro k hk
          simp only [vectorsOf_length]
          rcases List.mem_append.mp hk with hk | hk
          · have := h3 k hk
            omega
          · have := (List.mem_range'_1.mp hk).2
            omega

/-- C5 (amended): in every ingestion run the upserted records carry ids
`id-k` for a strictly increasing (hence pairwise distinct, unique across the
run) sequence of counter values `k` — but the id of a chunk is minted only
after its batch embeds successfully, from a counter that advances only with
embedded batches, so which id a chunk gets depends on the success of the
earlier embedding calls. -/
theorem C5_ids_unique_and_monotone (provider : List String → Except String (List Vec))
    (upsertFails : Nat → Bool) (all_chunks : List String) :
    ∃ ks : List Nat, List.Pairwise (· < ·) ks ∧
      (ingest_main provider upsertFails all_chunks).upserts.map PineRecord.id =
        ks.map mkId := by
  by_cases h : all_chunks = []
  · exact ⟨[], List.Pairwise.nil, by simp [ingest_main, h]⟩
  · obtain ⟨ks2, hp, hids, _⟩ := runBatches_ids provider upsertFails
      (toBatches all_chunks) 1 ⟨0, 1, [], [LogEntry.totalChunks all_chunks.length]⟩
      [] List.Pairwise.nil (by simp) (by simp)
    refine ⟨ks2, hp, ?_⟩
    simp only [ingest_main, if_neg h]
    exact hids

/-- A match whose metadata is exactly `{"text": c}` is read through the
`'text'` branch of the extraction loop: the payload extracted is `c` itself,
and the `'content'` fallback is never consulted. -/
theorem extract_single_text (c : String) :
    extractContexts [⟨some [("text", c)]⟩] = Except.ok [c] := rfl

/-- Every record of a `vectors_batch` carries metadata exactly
`{"text": chunk}` for a chunk of its batch. -/
theorem vectorsOf_metadata (startId : Nat) (batch : List String) (embs : List Vec) :
    ∀ r ∈ vectorsOf startId batch embs,
      ∃ c, r.metadata = [("text", c)] ∧ c ∈ batch := by
  intro r hr
  simp only [vectorsOf, List.mem_map] at hr
  obtain ⟨p, hp, rfl⟩ := hr
  refine ⟨p.2.1, rfl, ?_⟩
  obtain ⟨i, x⟩ := p
  obtain ⟨c, v⟩ := x
  simp only [List.enum] at hp
  obtain ⟨h0, hlt, hx⟩ := List.mem_enumFrom hp
  have hmem : (c, v) ∈ batch.zip embs := by
    rw [hx]
    exact List.getElem_mem _
  exact (List.of_mem_zip hmem).1

/-- Every element of every batch comes from the chunk list being split. -/
theorem toBatchesAux_subset :
    ∀ (fuel : Nat) (l : List String), ∀ b ∈ toBatchesAux fuel l, ∀ x ∈ b, x ∈ l := by
  intro fuel
  induction fuel with
  | zero =>
    intro l b hb
    simp [toBatchesAux] at hb
  | succ fuel ih =>
    intro l b hb x hx
    by_cases hl : l = []
    · simp [toBatchesAux, hl] at hb
    · simp only [toBatchesAux, if_neg hl] at hb
      rcases List.mem_cons.mp hb with rfl | hb
      · exact List.take_subset _ _ hx
      · exact List.drop_subset _ _ (ih (l.drop BATCH_SIZE) b hb x hx)

/-- The possible effects of one batch iteration on the upserted list: nothing
(embedding or upsert failed), or exactly one `vectors_batch` appended. -/
theorem processBatch_upserts (provider : List String → Except String (List Vec))
    (upsertFails : Nat → Bool) (bnum : Nat) (batch : List String) (st : IngestState) :
    (processBatch provider upsertFails bnum batch st).upserts = st.upserts ∨
    ∃ embs, (processBatch provider upsertFails bnum batch st).upserts =
      st.upserts ++ vectorsOf st.chunk_id_counter batch embs := by
  unfold processBatch
  cases he : create_embeddings provider batch with
  | error e => exact Or.inl rfl
  | ok embs =>
    by_cases hf : upsertFails bnum
    · exact Or.inl (by simp [hf])
    · exact Or.inr ⟨embs, by simp [hf]⟩

/-- Invariant of the batch loop: when every remaining batch draws from the
chunk list and every record upserted so far carries `{"text": chunk}`
metadata for some chunk, the same holds after the loop. -/
theorem runBatches_metadata (provider : List String → Except String (List Vec))
    (upsertFails : Nat → Bool) (chunks : List String) :
    ∀ (bs : List (List String)) (bnum : Nat) (st : IngestState),
      (∀ b ∈ bs, ∀ x ∈ b, x ∈ chunks) →
      (∀ r ∈ st.upserts, ∃ c, r.metadata = [("text", c)] ∧ c ∈ chunks) →
      ∀ r ∈ (runBatches provider upsertFails bnum bs st).upserts,
        ∃ c, r.metadata = [("text", c)] ∧ c ∈ chunks := by
  intro bs
  induction bs with
  | nil =>
    intro bnum st _ hst
    exact hst
  | cons b bs ih =>
    intro bnum st hbs hst
    simp only [runBatches]
    apply ih (bnum + 1) _ (fun b2 hb2 x hx => hbs b2 (List.mem_cons_of_mem _ hb2) x hx)
    intro r hr
    rcases processBatch_upserts provider upsertFails bnum b st with hsame | ⟨embs, happ⟩
    · rw [hsame] at hr
      exact hst r hr
    · rw [happ] at hr
      rcases List.mem_append.mp hr with hr | hr
      · exact hst r hr
      · obtain ⟨c, hmd, hc⟩ := vectorsOf_metadata st.chunk_id_counter b embs r hr
        exact ⟨c, hmd, hbs b (List.mem_cons_self _ _) c hc⟩

/-- C10: every record the indexer upserts has metadata exactly
`{"text": chunk_text}` where `chunk_text` is a chunk of the run, so the
payload of every indexed record is its source chunk, and a match built from
such a record is always read through the `'text'` branch of the retriever —
the `'content'` fallback branch is never taken for records this indexer
produced. -/
theorem C10_upserted_payload_is_chunk_text
    (provider : List String → Except String (List Vec)) (upsertFails : Nat → Bool)
    (all_chunks : List String) :
    ∀ r ∈ (ingest_main provider upsertFails all_chunks).upserts,
      ∃ c, r.metadata = [("text", c)] ∧ c ∈ all_chunks ∧
        extractContexts [⟨some r.metadata⟩] = Except.ok [c] := by
  intro r hr
  by_cases h : all_chunks = []
  · simp [ingest_main, h] at hr
  · have hr' : r ∈ (runBatches provider upsertFails 1 (toBatches all_chunks)
        ⟨0, 1, [], [LogEntry.totalChunks all_chunks.length]⟩).upserts := by
      simpa [ingest_main, if_neg h] using hr
    obtain ⟨c, hmd, hc⟩ := runBatches_metadata provider upsertFails all_chunks
      (toBatches all_chunks) 1 ⟨0, 1, [], [LogEntry.totalChunks all_chunks.length]⟩
      (fun b hb x hx => toBatchesAux_subset all_chunks.length all_chunks b hb x hx)
      (fun r hr0 => by simp at hr0) r hr'
    refine ⟨c, hmd, hc, ?_⟩
    rw [hmd]
    exact extract_single_text c

/-- C10 witness: the record of a concrete one-chunk run. -/
theorem C10_upserted_payload_is_chunk_text_witness :
    ∃ c, ([("text", "hello")] : Metadata) = [("text", c)] ∧
      c ∈ (["hello"] : List String) ∧
      extractContexts [⟨some [("text", "hello")]⟩] = Except.ok [c] :=
  C10_upserted_payload_is_chunk_text
    (fun ts => Except.ok (ts.map (fun _ => ([] : Vec)))) (fun _ => false) ["hello"]
    ⟨mkId 1, [], [("text", "hello")]⟩ (by decide)

/-- `betterCut` returns one of its two candidates. -/
theorem betterCut_cases (t : List Char) (b j : Nat) :
    betterCut t b j = b ∨ betterCut t b j = j := by
  unfold betterCut
  split_ifs <;> simp

/-- `betterCut` never worsens the class of the incumbent. -/
theorem betterCut_class_le_left (t : List Char) (b j : Nat) :
    cutClass t (betterCut t b j) ≤ cutClass t b := by
  unfold betterCut
  split_ifs with h
  · omega
  · omega

/-- `betterCut` is at least as good as the challenger. -/
theorem betterCut_class_le_right (t : List Char) (b j : Nat) :
    cutClass t (betterCut t b j) ≤ cutClass t j := by
  unfold betterCut
  split_ifs with h
  · omega
  · omega

/-- Folding `betterCut` yields the initial candidate or a scanned one. -/
theorem foldl_betterCut_mem (t : List Char) :
    ∀ (l : List Nat) (b : Nat),
      l.foldl (betterCut t) b = b ∨ l.foldl (betterCut t) b ∈ l := by
  intro l
  induction l with
  | nil => intro b; exact Or.inl rfl
  | cons a l ih =>
    intro b
    rcases ih (betterCut t b a) with heq | hmem
    · rcases betterCut_cases t b a with hb | ha
      · exact Or.inl (by simpa [hb] using heq)
      · exact Or.inr (by rw [List.foldl_cons, heq, ha]; exact List.mem_cons_self _ _)
    · exact Or.inr (List.mem_cons_of_mem _ hmem)

/-- Folding `betterCut` reaches the best class among the initial candidate
and all scanned ones. -/
theorem foldl_betterCut_min (t : List Char) :
    ∀ (l : List Nat) (b : Nat),
      cutClass t (l.foldl (betterCut t) b) ≤ cutClass t b ∧
      ∀ j ∈ l, cutClass t (l.foldl (betterCut t) b) ≤ cutClass t j := by
  intro l
  induction l with
  | nil =>
    intro b
    exact ⟨le_refl _, fun j hj => absurd hj (List.not_mem_nil j)⟩
  | cons a l ih =>
    intro b
    obtain ⟨h1, h2⟩ := ih (betterCut t b a)
    simp only [List.foldl_cons]
    refine ⟨h1.trans (betterCut_class_le_left t b a), ?_⟩
    intro j hj
    rcases List.mem_cons.mp hj with rfl | hj
    · exact h1.trans (betterCut_class_le_right t b j)
    · exact h2 j hj

/-- The chosen cut lies inside the admissible window `(lo, hi]`. -/
theorem chooseCut_bounds (t : List Char) (lo hi : Nat) (h : lo < hi) :
    lo < chooseCut t lo hi ∧ chooseCut t lo hi ≤ hi := by
  unfold chooseCut
  rcases foldl_betterCut_mem t ((List.range' (lo + 1) (hi - lo)).reverse) hi with heq | hmem
  · rw [heq]
    omega
  · rw [List.mem_reverse, List.mem_range'_1] at hmem
    omega

/-- The chosen cut has the best (lowest) separator class of any position in
the admissible window: a lower-priority separator is used only when no
higher-priority one allows a cut within the bound. -/
theorem chooseCut_best (t : List Char) (lo hi j : Nat) (h1 : lo < j) (h2 : j ≤ hi) :
    cutClass t (chooseCut t lo hi) ≤ cutClass t j := by
  unfold chooseCut
  apply (foldl_betterCut_min t ((List.range' (lo + 1) (hi - lo)).reverse) hi).2
  rw [List.mem_reverse, List.mem_range'_1]
  omega

/-- Adjacent slices concatenate to the enclosing slice. -/
theorem sliceL_append_sliceL (t : List Char) (a b c : Nat) (h1 : a ≤ b) (h2 : b ≤ c) :
    sliceL t a b ++ sliceL t b c = sliceL t a c := by
  unfold sliceL
  have hb : t.drop b = (t.drop a).drop (b - a) := by
    rw [List.drop_drop]
    congr 1
    omega
  rw [hb]
  have hc : c - a = (b - a) + (c - b) := by omega
  rw [hc, List.take_add]

/-- Dropping `k` characters from a slice shifts its start by `k`. -/
theorem sliceL_drop (t : List Char) (a b k : Nat) :
    (sliceL t a b).drop k = sliceL t (a + k) b := by
  unfold sliceL
  rw [List.drop_take, List.drop_drop]
  congr 1
  omega

/-- A slice with its end in range has the expected length. -/
theorem sliceL_length (t : List Char) (a b : Nat) (hb : b ≤ t.length) :
    (sliceL t a b).length = b - a := by
  unfold sliceL
  rw [List.length_take, List.length_drop]
  omega

/-- Taking `k` characters of a long-enough slice shrinks its end. -/
theorem sliceL_take (t : List Char) (a b k : Nat) (h : k ≤ b - a) :
    (sliceL t a b).take k = sliceL t a (a + k) := by
  unfold sliceL
  rw [List.take_take]
  congr 1
  omega

/-- Structure of the chunk boundaries: the list is non-empty and starts at
`s`; every chunk is non-degenerate, at most `C` long and ends inside the
text; and consecutive boundaries are chained with overlap exactly `O`, both
chunks of a pair longer than `O`. The head either was cut past `s + O` or is
the final chunk ending at the end of the text. -/
theorem chunkBoundsAux_shape (C O : Nat) (hO : O < C) (t : List Char) :
    ∀ (fuel s : Nat), t.length - s ≤ fuel → s < t.length →
      (∃ e tl, chunkBoundsAux C O t fuel s = (s, e) :: tl ∧
        (s + O < e ∨ e = t.length)) ∧
      (∀ p ∈ chunkBoundsAux C O t fuel s,
        p.1 < p.2 ∧ p.2 - p.1 ≤ C ∧ p.2 ≤ t.length) ∧
      List.Chain'
        (fun p q => q.1 + O = p.2 ∧ p.1 + O < p.2 ∧ q.1 + O < q.2 ∧
          p.2 ≤ t.length ∧ q.2 ≤ t.length)
        (chunkBoundsAux C O t fuel s) := by
  intro fuel
  induction fuel with
  | zero =>
    intro s hf hs
    exfalso
    omega
  | succ fuel ih =>
    intro s hf hs
    by_cases hbase : t.length ≤ s + C ∨ C ≤ O
    · have hC : t.length ≤ s + C := by
        rcases hbase with h | h
        · exact h
        · omega
      simp only [chunkBoundsAux, if_pos hbase]
      refine ⟨⟨t.length, [], rfl, Or.inr rfl⟩, ?_, List.chain'_singleton _⟩
      intro p hp
      rcases List.mem_cons.mp hp with rfl | hp
      · exact ⟨hs, by omega, le_refl _⟩
      · exact absurd hp (List.not_mem_nil p)
    · have hlen : ¬ t.length ≤ s + C := fun h => hbase (Or.inl h)
      have hwin : s + O < s + C := by omega
      obtain ⟨he1, he2⟩ := chooseCut_bounds t (s + O) (s + C) hwin
      have hs' : chooseCut t (s + O) (s + C) - O < t.length := by omega
      have hf' : t.length - (chooseCut t (s + O) (s + C) - O) ≤ fuel := by omega
      obtain ⟨⟨e', tl', heq', hde'⟩, hall', hchain'⟩ := ih (chooseCut t (s + O) (s + C) - O) hf' hs'
      simp only [chunkBoundsAux, if_neg hbase]
      refine ⟨⟨chooseCut t (s + O) (s + C),
        chunkBoundsAux C O t fuel (chooseCut t (s + O) (s + C) - O), rfl, Or.inl he1⟩, ?_, ?_⟩
      · intro p hp
        rcases List.mem_cons.mp hp with rfl | hp
        · exact ⟨by omega, by omega, by omega⟩
        · exact hall' p hp
      · rw [List.chain'_cons']
        constructor
        · intro q hq
          rw [heq'] at hq
          simp only [List.head?_cons, Option.mem_def, Option.some.injEq] at hq
          subst hq
          have he'le : e' ≤ t.length := by
            have := hall' (chooseCut t (s + O) (s + C) - O, e')
              (by rw [heq']; exact List.mem_cons_self _ _)
            exact this.2.2
          have he'big : (chooseCut t (s + O) (s + C) - O) + O < e' := by
            rcases hde' with h | h
            · exact h
            · omega
          exact ⟨by omega, by omega, he'big, by omega, he'le⟩
        · exact hchain'

/-- The chunks after the first, with the overlap removed, concatenate to the
text from `s + O` to the end. -/
theorem chunkBoundsAux_tailJoin (C O : Nat) (hO : O < C) (t : List Char) :
    ∀ (fuel s : Nat), t.length - s ≤ fuel → s < t.length →
      ((chunkBoundsAux C O t fuel s).map (fun p => sliceL t (p.1 + O) p.2)).flatten =
        sliceL t (s + O) t.length := by
  intro fuel
  induction fuel with
  | zero =>
    intro s hf hs
    exfalso
    omega
  | succ fuel ih =>
    intro s hf hs
    by_cases hbase : t.length ≤ s + C ∨ C ≤ O
    · simp [chunkBoundsAux, if_pos hbase]
    · have hlen : ¬ t.length ≤ s + C := fun h => hbase (Or.inl h)
      have hwin : s + O < s + C := by omega
      obtain ⟨he1, he2⟩ := chooseCut_bounds t (s + O) (s + C) hwin
      have hs' : chooseCut t (s + O) (s + C) - O < t.length := by omega
      have hf' : t.length - (chooseCut t (s + O) (s + C) - O) ≤ fuel := by omega
      simp only [chunkBoundsAux, if_neg hbase, List.map_cons, List.flatten_cons]
      rw [ih (chooseCut t (s + O) (s + C) - O) hf' hs']
      have heO : chooseCut t (s + O) (s + C) - O + O = chooseCut t (s + O) (s + C) := by
        omega
      rw [heO]
      exact sliceL_append_sliceL t (s + O) (chooseCut t (s + O) (s + C)) t.length
        (by omega) (by omega)

/-- Reassembling the chunks from `s` (first chunk whole, the rest with the
overlap dropped) reconstructs the text from `s` to the end. -/
theorem chunkBoundsAux_reassemble (C O : Nat) (hO : O < C) (t : List Char)
    (fuel s : Nat) (hf : t.length - s ≤ fuel) (hs : s < t.length) :
    reassemble O ((chunkBoundsAux C O t fuel s).map (fun p => sliceL t p.1 p.2)) =
      sliceL t s t.length := by
  cases fuel with
  | zero =>
    exfalso
    omega
  | succ fuel =>
    by_cases hbase : t.length ≤ s + C ∨ C ≤ O
    · simp [chunkBoundsAux, if_pos hbase, reassemble]
    · have hlen : ¬ t.length ≤ s + C := fun h => hbase (Or.inl h)
      have hwin : s + O < s + C := by omega
      obtain ⟨he1, he2⟩ := chooseCut_bounds t (s + O) (s + C) hwin
      have hs' : chooseCut t (s + O) (s + C) - O < t.length := by omega
      have hf' : t.length - (chooseCut t (s + O) (s + C) - O) ≤ fuel := by omega
      simp only [chunkBoundsAux, if_neg hbase, List.map_cons, reassemble, List.map_map]
      have hcongr : ((fun d : List Char => d.drop O) ∘ fun p : Nat × Nat => sliceL t p.1 p.2) =
          fun p : Nat × Nat => sliceL t (p.1 + O) p.2 := by
        funext p
        exact sliceL_drop t p.1 p.2 O
      rw [hcongr, chunkBoundsAux_tailJoin C O hO t fuel (chooseCut t (s + O) (s + C) - O) hf' hs']
      have heO : chooseCut t (s + O) (s + C) - O + O = chooseCut t (s + O) (s + C) := by
        omega
      rw [heO]
      exact sliceL_append_sliceL t s (chooseCut t (s + O) (s + C)) t.length
        (by omega) (by omega)

set_option maxRecDepth 4000 in
/-- C2: the chunker contract at the configured bounds `CHUNK_SIZE = 1000` and
`CHUNK_OVERLAP = 200` (the splitting algorithm is modelled from the spec, as
the `RecursiveCharacterTextSplitter` implementation is not part of this
repository): every produced chunk has at most `CHUNK_SIZE` characters;
consecutive chunks share exactly `CHUNK_OVERLAP` characters of boundary
context (the last 200 characters of each chunk are the first 200 of the
next); concatenating the chunks with the overlap removed reconstructs the
original text; empty input yields an empty chunk sequence; and every cut is
taken at the best available separator class of its window — paragraph break,
then line break, then sentence-ending punctuation followed by a space, then
plain space, then hard character cut. -/
theorem C2_chunker_contract (t : List Char) :
    (∀ c ∈ split_text_into_chunks t, c.length ≤ CHUNK_SIZE) ∧
    List.Chain'
      (fun a b => CHUNK_OVERLAP ≤ a.length ∧ CHUNK_OVERLAP ≤ b.length ∧
        a.drop (a.length - CHUNK_OVERLAP) = b.take CHUNK_OVERLAP)
      (split_text_into_chunks t) ∧
    reassemble CHUNK_OVERLAP (split_text_into_chunks t) = t ∧
    split_text_into_chunks [] = [] ∧
    (∀ lo hi j : Nat, lo < j → j ≤ hi →
      cutClass t (chooseCut t lo hi) ≤ cutClass t j) := by
  have hO : CHUNK_OVERLAP < CHUNK_SIZE := by decide
  by_cases ht : t = []
  · subst ht
    refine ⟨?_, by simp [split_text_into_chunks], rfl, rfl,
      fun lo hi j h1 h2 => chooseCut_best [] lo hi j h1 h2⟩
    intro c hc
    simp [split_text_into_chunks] at hc
  · have hs : 0 < t.length := List.length_pos.mpr ht
    obtain ⟨_, hall, hchain⟩ := chunkBoundsAux_shape CHUNK_SIZE CHUNK_OVERLAP hO t
      t.length 0 (by omega) hs
    refine ⟨?_, ?_, ?_, rfl, fun lo hi j h1 h2 => chooseCut_best t lo hi j h1 h2⟩
    · intro c hc
      simp only [split_text_into_chunks, if_neg ht, chunkBounds, List.mem_map] at hc
      obtain ⟨p, hp, rfl⟩ := hc
      have hlen := (hall p hp).2.1
      have hslice : (sliceL t p.1 p.2).length ≤ p.2 - p.1 := by
        unfold sliceL
        rw [List.length_take]
        exact min_le_left _ _
      omega
    · simp only [split_text_into_chunks, if_neg ht, chunkBounds]
      rw [List.chain'_map]
      apply List.Chain'.imp ?_ hchain
      intro p q hpq
      obtain ⟨h1, h2, h3, h4, h5⟩ := hpq
      have hlp : (sliceL t p.1 p.2).length = p.2 - p.1 := sliceL_length t p.1 p.2 h4
      have hlq : (sliceL t q.1 q.2).length = q.2 - q.1 := sliceL_length t q.1 q.2 h5
      refine ⟨by omega, by omega, ?_⟩
      rw [hlp, sliceL_drop, sliceL_take t q.1 q.2 CHUNK_OVERLAP (by omega)]
      congr 1 <;> omega
    · simp only [split_text_into_chunks, if_neg ht, chunkBounds]
      rw [chunkBoundsAux_reassemble CHUNK_SIZE CHUNK_OVERLAP hO t t.length 0 (by omega) hs]
      unfold sliceL
      simp
